import Mathlib

/-!
Verification of the chain-libs private-voting core against its specification.

The development shallowly embeds the Rust sources:

* `chain-vote/src/lib.rs` — encrypted tally, decrypt shares, tally state,
  their byte serializations, and the two-stage discrete-log result decoder;
* `chain-impl-mockchain/src/vote/ledger.rs` — the persistent vote-plan ledger.

The prime-order group (module `gang`), the ElGamal ciphertext (module
`gargamel`), `BlockDate`, `VotePlan` and the `VotePlanManager` transitions are
not part of the provided sources; they are modelled from the specification
(spec sections 3, 4.1, 4.2, 4.8), as documented on each definition.  Every
cyclic group of prime order `q` with a distinguished generator is isomorphic to
`ZMod q` with generator `1`, which is the model used here: the group element
`k·g` is the residue `k`.

Machine integers (`u64`, `usize`) are modelled as `Nat`; the one place where
Rust release-mode wrap-around matters (`vote_left -= votes_found` in `result`)
uses an explicit `% 2 ^ 64`.  Rust panics (assertion failures, out-of-bounds
indexing, `unwrap` on `None`) are modelled by an outer `Option` layer on the
embedded function: `none` means the call panics.
-/

namespace ChainLibs

/-- Modelled from the spec (§3, §4.1): the prime-order cyclic group of order
`q` with fixed generator `g`, written additively; `ZMod q` with generator `1`
is the canonical such group, so `k·g` is the residue class of `k`.
The identity (`GroupElement::zero`) is `0` and `normalize` is the identity
on this already-canonical representation. -/
abbrev GroupElement (q : Nat) : Type := ZMod q

/-- Modelled from the spec (§4.1): `GROUP_ELEMENT_BYTES_LEN`, the fixed
serialized width of a group element.  The spec fixes no concrete value, only
that the width is fixed; the model uses 2 bytes, which admits both canonical
and non-canonical encodings whenever `q < 256^2`. -/
def groupElementBytesLen : Nat := 2

/-- Modelled from the spec (§4.1): `GroupElement::to_bytes`, a fixed-width
big-endian encoding of the canonical representative. -/
def geToBytes (q : Nat) (x : GroupElement q) : List Nat :=
  [ZMod.val x / 256 % 256, ZMod.val x % 256]

/-- Modelled from the spec (§4.1): `GroupElement::from_bytes` accepts exactly
the fixed-width canonical encodings (value below the group order) and rejects
everything else, so that serialization round-trips bit-exactly. -/
def geFromBytes (q : Nat) (bs : List Nat) : Option (GroupElement q) :=
  match bs with
  | [b1, b2] =>
    if b1 ≤ 255 ∧ b2 ≤ 255 ∧ b1 * 256 + b2 < q then
      some ((b1 * 256 + b2 : Nat) : ZMod q)
    else none
  | _ => none

/-- Split a byte string into chunks of `groupElementBytesLen = 2` bytes
(the callers guard the length to be a multiple of 2, so the final
odd-length chunk case is never reached there). -/
def chunk2 : List Nat → List (List Nat)
  | [] => []
  | [b] => [[b]]
  | b1 :: b2 :: rest => [b1, b2] :: chunk2 rest

/-- Split a byte string into chunks of `CIPHERTEXT_BYTES_LEN = 4` bytes. -/
def chunk4 : List Nat → List (List Nat)
  | b1 :: b2 :: b3 :: b4 :: rest => [b1, b2, b3, b4] :: chunk4 rest
  | [] => []
  | rest => [rest]

/-- `group_elements_to_bytes` (chain-vote/src/lib.rs): dense concatenation of
the fixed-width element encodings, no length header. -/
def groupElementsToBytes (q : Nat) (elements : List (GroupElement q)) : List Nat :=
  (elements.map (geToBytes q)).flatten

/-- `group_elements_from_bytes` (chain-vote/src/lib.rs): reject when the
length is not a multiple of `GROUP_ELEMENT_BYTES_LEN`, else parse every
chunk, failing if any chunk fails. -/
def groupElementsFromBytes (q : Nat) (bytes : List Nat) :
    Option (List (GroupElement q)) :=
  if bytes.length % groupElementBytesLen = 0 then
    (chunk2 bytes).mapM (geFromBytes q)
  else none

/-- `TallyState::to_bytes` (chain-vote/src/lib.rs): the state is its list of
`r2` group elements, serialized densely. -/
def tallyStateToBytes (q : Nat) (r2s : List (GroupElement q)) : List Nat :=
  groupElementsToBytes q r2s

/-- `TallyState::from_bytes` (chain-vote/src/lib.rs). -/
def tallyStateFromBytes (q : Nat) (bytes : List Nat) :
    Option (List (GroupElement q)) :=
  groupElementsFromBytes q bytes

/-- `TallyDecryptShare::to_bytes` (chain-vote/src/lib.rs): the share is its
list of `r1` group elements, serialized densely. -/
def tallyDecryptShareToBytes (q : Nat) (r1s : List (GroupElement q)) : List Nat :=
  groupElementsToBytes q r1s

/-- `TallyDecryptShare::from_bytes` (chain-vote/src/lib.rs). -/
def tallyDecryptShareFromBytes (q : Nat) (bytes : List Nat) :
    Option (List (GroupElement q)) :=
  groupElementsFromBytes q bytes

/-- Modelled from the spec (§4.2): an ElGamal ciphertext is a pair of group
elements; `Ciphertext::zero()` is `(O, O)`, addition is component-wise and
scalar multiplication scales both components. -/
structure Ciphertext (q : Nat) where
  c1 : GroupElement q
  c2 : GroupElement q
deriving DecidableEq

/-- Modelled from the spec (§4.2): `Ciphertext::zero()`. -/
def ctZero (q : Nat) : Ciphertext q := ⟨0, 0⟩

/-- Modelled from the spec (§4.2): component-wise ciphertext addition. -/
def ctAdd {q : Nat} (a b : Ciphertext q) : Ciphertext q :=
  ⟨a.c1 + b.c1, a.c2 + b.c2⟩

/-- Modelled from the spec (§4.2): `Ciphertext * Scalar` scales both
components; `Scalar::from_u64 w` is the residue of `w`. -/
def ctMulScalar {q : Nat} (c : Ciphertext q) (w : Nat) : Ciphertext q :=
  ⟨(w : ZMod q) * c.c1, (w : ZMod q) * c.c2⟩

/-- Modelled from the spec (§4.2, §6): ciphertext serialization is the
concatenation of its two element encodings, exactly
`2 · GROUP_ELEMENT_BYTES_LEN` bytes. -/
def ctToBytes (q : Nat) (c : Ciphertext q) : List Nat :=
  geToBytes q c.c1 ++ geToBytes q c.c2

/-- Modelled from the spec (§4.2): `Ciphertext::from_bytes` returns none on
any sub-element failure. -/
def ctFromBytes (q : Nat) (bs : List Nat) : Option (Ciphertext q) :=
  match bs with
  | [b1, b2, b3, b4] =>
    match geFromBytes q [b1, b2], geFromBytes q [b3, b4] with
    | some x, some y => some ⟨x, y⟩
    | _, _ => none
  | _ => none

/-- `CIPHERTEXT_BYTES_LEN = 2 · GROUP_ELEMENT_BYTES_LEN`. -/
def ciphertextBytesLen : Nat := 4

/-- `EncryptedTally::to_bytes` (chain-vote/src/lib.rs): dense concatenation
of the slot ciphertexts. -/
def encryptedTallyToBytes (q : Nat) (r : List (Ciphertext q)) : List Nat :=
  (r.map (ctToBytes q)).flatten

/-- `EncryptedTally::from_bytes` (chain-vote/src/lib.rs): reject when the
length is not a multiple of `CIPHERTEXT_BYTES_LEN`, else parse every chunk. -/
def encryptedTallyFromBytes (q : Nat) (bytes : List Nat) :
    Option (List (Ciphertext q)) :=
  if bytes.length % ciphertextBytesLen = 0 then
    (chunk4 bytes).mapM (ctFromBytes q)
  else none

/-- `EncryptedTally::add` (chain-vote/src/lib.rs): `assert_eq!` on the
lengths (a panic, modelled as `none`), then slot-wise
`ri := ri + ci · Scalar::from_u64(weight)`. -/
def encryptedTallyAdd (q : Nat) (r vote : List (Ciphertext q)) (weight : Nat) :
    Option (List (Ciphertext q)) :=
  if vote.length = r.length then
    some (List.zipWith (fun ri ci => ctAdd ri (ctMulScalar ci weight)) r vote)
  else none

/-- Modelled from the spec (§4.1): `GroupElement::table(k) = [g, 2g, …, k·g]`;
in the `ZMod q` model these are the residues `1, 2, …, k`. -/
def tableList (q : Nat) (k : Nat) : List (GroupElement q) :=
  (List.range' 1 k).map (fun j => ((j : Nat) : ZMod q))

/-- The table scan inside `result` (chain-vote/src/lib.rs): enumerate the
table, and at the first entry equal to `r` (0-indexed position `ith`) report
the tally `ith + 1`. -/
def scanTable (q : Nat) (r : GroupElement q) : Nat → List (GroupElement q) → Option Nat
  | _, [] => none
  | ith, t :: rest => if t = r then some (ith + 1) else scanTable q r (ith + 1) rest

/-- Body of the single-step continuation loop inside `result`, with the loop
variant `vote_left - i` made explicit as structural fuel: fuel `0` is the
`i >= vote_left` exit, and otherwise the iteration checks `e == r` and steps
`e` by the generator while incrementing `i`. -/
def stepLoopGo (q : Nat) (r : GroupElement q) : Nat → Nat → GroupElement q → Option Nat
  | 0, _, _ => none
  | fuel + 1, i, e => if e = r then some i else stepLoopGo q r fuel (i + 1) (e + 1)

/-- The single-step continuation loop inside `result` (chain-vote/src/lib.rs):
`loop { if i >= vote_left { break }; if e == r { found = Some(i); break };
e = e + gen; i += 1 }`; the remaining iteration count is `vote_left - i`. -/
def stepLoop (q : Nat) (r : GroupElement q) (voteLeft : Nat) (i : Nat)
    (e : GroupElement q) : Option Nat :=
  stepLoopGo q r (voteLeft - i) i e

/-- One slot of the decoding loop of `result` (chain-vote/src/lib.rs).  The
outer `Option` is the panic layer: when the table scan fails and
`table_size = 0`, the source indexes `table[table_size - 1]` out of bounds
and panics (`none`).  Otherwise the inner `Option Nat` is the source's
`found` value for the slot. -/
def decodeSlot (q tableSize voteLeft : Nat) (r : GroupElement q) :
    Option (Option Nat) :=
  if r = 0 then some (some 0)
  else
    match scanTable q r 0 (tableList q tableSize) with
    | some v => some (some v)
    | none =>
      if tableSize = 0 then none
      else
        some (stepLoop q r voteLeft (tableSize + 1)
          ((tableSize + 1 : Nat) : ZMod q))

/-- `u64` wrap-around subtraction, modelling Rust release-mode
`vote_left -= votes_found` for operands below `2 ^ 64`. -/
def u64sub (a b : Nat) : Nat := (a + 2 ^ 64 - b % 2 ^ 64) % 2 ^ 64

/-- The slot loop of `result` (chain-vote/src/lib.rs): decode each slot in
order, pushing `None` on failure and otherwise decrementing `vote_left` by the
recovered tally.  `none` means the run panics. -/
def resultLoop (q tableSize : Nat) : Nat → List (GroupElement q) → Option (List (Option Nat))
  | _, [] => some []
  | voteLeft, r :: rs =>
    match decodeSlot q tableSize voteLeft r with
    | none => none
    | some none => (resultLoop q tableSize voteLeft rs).map (fun vs => none :: vs)
    | some (some v) =>
      (resultLoop q tableSize (u64sub voteLeft v) rs).map (fun vs => some v :: vs)

/-- `GroupElement::sum(decrypt_shares.iter().map(|ds| &ds.r1s[i]))` inside
`result` (chain-vote/src/lib.rs): the indexing `ds.r1s[i]` panics (`none`)
when a share has fewer than `i + 1` elements. -/
def sharesSum (q : Nat) (shares : List (List (GroupElement q))) (i : Nat) :
    Option (GroupElement q) :=
  (shares.mapM (fun ds => List.get? ds i)).map (fun l => l.sum)

/-- The `r_results` computation of `result` (chain-vote/src/lib.rs): for each
slot `i`, `r2s[i] - Σ shares r1s[i]`, followed by `normalize` (the identity in
the canonical model). -/
def rResults (q : Nat) (r2s : List (GroupElement q))
    (shares : List (List (GroupElement q))) : Option (List (GroupElement q)) :=
  r2s.enum.mapM (fun p => (sharesSum q shares p.1).map (fun r1 => p.2 - r1))

/-- `result` (chain-vote/src/lib.rs): derive the per-slot group elements,
then run the two-stage discrete-log decoding loop.  The returned value is the
`votes` field of `TallyResult`; the `options: Range<u8>` field is
`0..(r2s.len() as u8)` and carries no further information.  `none` means the
source call panics. -/
def result (q : Nat) (maxVotes tableSize : Nat) (r2s : List (GroupElement q))
    (shares : List (List (GroupElement q))) : Option (List (Option Nat)) :=
  (rResults q r2s shares).bind (resultLoop q tableSize maxVotes)

/-- The claim's description of one slot of the result decoder, stated
declaratively: tally `0` for the identity; else the first table position `k`
(0-indexed) whose entry equals `r` gives `k + 1` — in the model the table
entry at position `k` is the residue `k + 1`, so the first `j ∈ [1, tableSize]`
with `j·g = r` gives `j`; else the first counter value
`i ∈ [tableSize + 1, voteLeft)` with `i·g = r`, and `none` when the budget is
exhausted first. -/
def decodeSlotClaim (q tableSize voteLeft : Nat) (r : GroupElement q) : Option Nat :=
  if r = 0 then some 0
  else
    match (List.range' 1 tableSize).find? (fun j => decide (((j : Nat) : ZMod q) = r)) with
    | some j => some j
    | none =>
      (List.range' (tableSize + 1) (voteLeft - (tableSize + 1))).find?
        (fun j => decide (((j : Nat) : ZMod q) = r))

/-- The claim's description of the decoding loop: decode the slots in order,
threading the remaining budget. -/
def resultLoopClaim (q tableSize : Nat) : Nat → List (GroupElement q) → List (Option Nat)
  | _, [] => []
  | voteLeft, r :: rs =>
    match decodeSlotClaim q tableSize voteLeft r with
    | none => none :: resultLoopClaim q tableSize voteLeft rs
    | some v => some v :: resultLoopClaim q tableSize (u64sub voteLeft v) rs

/-- Sum of the recovered (`Some`) tallies of a decoded vote vector. -/
def sumSome (votes : List (Option Nat)) : Nat := (votes.filterMap id).sum

/-- Budget discipline predicate for the amended budget claim: every recovered
slot tally is at most the remaining budget at its slot (the panic case is
irrelevant: no result is returned there). -/
def decodesWithinBudget (q tableSize : Nat) : Nat → List (GroupElement q) → Bool
  | _, [] => true
  | voteLeft, r :: rs =>
    match decodeSlot q tableSize voteLeft r with
    | none => true
    | some none => decodesWithinBudget q tableSize voteLeft rs
    | some (some v) => decide (v ≤ voteLeft) && decodesWithinBudget q tableSize (voteLeft - v) rs

/-- Big-endian 8-byte encoding of a `u64`, as produced by
`ByteBuilder::u64` in `TallyDecryptShare::serialize_in`. -/
def u64be (n : Nat) : List Nat :=
  [n / 256 ^ 7 % 256, n / 256 ^ 6 % 256, n / 256 ^ 5 % 256, n / 256 ^ 4 % 256,
   n / 256 ^ 3 % 256, n / 256 ^ 2 % 256, n / 256 % 256, n % 256]

/-- Big-endian value of an 8-byte list, as consumed by `ReadBuf::get_u64`. -/
def beVal8 (b0 b1 b2 b3 b4 b5 b6 b7 : Nat) : Nat :=
  ((((((b0 * 256 + b1) * 256 + b2) * 256 + b3) * 256 + b4) * 256 + b5) * 256 + b6)
    * 256 + b7

/-- `TallyDecryptShare::serialize_in` / `serialize` (chain-vote/src/lib.rs):
a `u64` big-endian count followed by the element encodings. -/
def tallyDecryptShareSerialize (q : Nat) (r1s : List (GroupElement q)) : List Nat :=
  u64be r1s.length ++ groupElementsToBytes q r1s

/-- Errors of the `Readable` interface (`chain_ser::mempack::ReadError`),
reduced to the one case this reader produces. -/
inductive ReadError where
  | notEnoughBytes
deriving DecidableEq

/-- The element loop of `<TallyDecryptShare as Readable>::read`
(chain-vote/src/lib.rs): `len` times take a `GROUP_ELEMENT_BYTES_LEN` slice
(`ReadError` when the buffer is short) and `GroupElement::from_bytes(..)
.unwrap()` it — the `unwrap` of a failed parse is a panic, modelled by the
outer `none`. -/
def tdsReadElems (q : Nat) : Nat → List Nat → Option (Except ReadError (List (GroupElement q)))
  | 0, _ => some (.ok [])
  | n + 1, bs =>
    if bs.length < groupElementBytesLen then some (.error .notEnoughBytes)
    else
      match geFromBytes q (bs.take groupElementBytesLen) with
      | none => none
      | some x =>
        match tdsReadElems q n (bs.drop groupElementBytesLen) with
        | none => none
        | some (.error e) => some (.error e)
        | some (.ok xs) => some (.ok (x :: xs))

/-- `<TallyDecryptShare as Readable>::read` (chain-vote/src/lib.rs): read a
big-endian `u64` count, then that many group elements.  `some (.error _)` is
a returned `ReadError`; `none` is a panic. -/
def tallyDecryptShareRead (q : Nat) (bs : List Nat) :
    Option (Except ReadError (List (GroupElement q))) :=
  match bs with
  | b0 :: b1 :: b2 :: b3 :: b4 :: b5 :: b6 :: b7 :: rest =>
    tdsReadElems q (beVal8 b0 b1 b2 b3 b4 b5 b6 b7) rest
  | _ => some (.error .notEnoughBytes)

/-- Modelled from the spec (glossary): a block date is an `(epoch, slot)`
pair, the logical clock of the ledger, ordered lexicographically. -/
structure BlockDate where
  epoch : Nat
  slot : Nat
deriving DecidableEq

/-- Strict lexicographic order on block dates (`<` on `BlockDate`). -/
def bdLt (a b : BlockDate) : Bool :=
  a.epoch < b.epoch || (a.epoch = b.epoch && a.slot < b.slot)

/-- Lexicographic order on block dates (`<=` on `BlockDate`). -/
def bdLe (a b : BlockDate) : Bool :=
  a.epoch < b.epoch || (a.epoch = b.epoch && a.slot ≤ b.slot)

/-- `vote::PayloadType`. -/
inductive PayloadType where
  | publicPayload
  | privatePayload
deriving DecidableEq

/-- Modelled from the spec (§3): the immutable `VotePlan` record.  The
proposal array is abstracted to its length (the only aspect the ledger
consults) and `VotePlanId` (`to_id()`, a digest of the canonical
serialization) to an opaque `Nat` carried by the record. -/
structure VotePlan where
  voteStart : BlockDate
  voteEnd : BlockDate
  committeeEnd : BlockDate
  proposalsCount : Nat
  payloadType : PayloadType
  committeePublicKeys : List Nat
  pid : Nat
deriving DecidableEq

/-- Modelled from the spec (§3): `ManagerStatus`. -/
inductive ManagerStatus where
  | voting
  | tallyStarted
  | finished
deriving DecidableEq

/-- Modelled from the spec (§3, §4.8): the per-plan manager state.  The
encrypted tallies and collected shares are abstracted away (no claim consults
them); recorded casts are kept as `(account identifier, proposal index)`
pairs with last-write-wins replacement. -/
structure VotePlanManager where
  plan : VotePlan
  committee : List Nat
  status : ManagerStatus
  casts : List (Nat × Nat)
deriving DecidableEq

/-- `VotePlanManager::new` (fresh manager in `Voting`). -/
def VotePlanManager.new (plan : VotePlan) (committee : List Nat) : VotePlanManager :=
  ⟨plan, committee, .voting, []⟩

/-- `vote::VoteError`, reduced to the discriminants the modelled manager
transitions produce. -/
inductive VoteError where
  | planMismatch
  | proposalOutOfRange
  | notVoting
  | outsideVotingWindow
  | outsideCommitteeWindow
  | notCommitteeMember
  | wrongPayloadKind
deriving DecidableEq

/-- `imhamt::UpdateError`: the key is absent, or the per-value closure
failed. -/
inductive UpdateErrorK where
  | keyNotFound
  | valueError (e : VoteError)
deriving DecidableEq

/-- `VotePlanLedgerError` (chain-impl-mockchain/src/vote/ledger.rs).  The
`InsertError` payload of `VotePlanInsertionError` has the single relevant
case (entry exists) and is dropped. -/
inductive VotePlanLedgerError where
  | votePlanInsertionError (id : Nat)
  | voteError (id : Nat) (reason : UpdateErrorK)
  | votePlanVoteEndPassed (currentDate voteEnd : BlockDate)
  | votePlanVoteStartStartedAlready (currentDate voteStart : BlockDate)
  | votePlanMissingCommitteeMemberKey
deriving DecidableEq

/-- `VotePlanLedger`: the persistent map `VotePlanId → VotePlanManager`,
consumed by the ledger as "immutable map with insert failing on a present key
and update failing on an absent key"; modelled as an association list. -/
abbrev VotePlanLedger : Type := List (Nat × VotePlanManager)

/-- `Hamt::insert`: fails when the key is already present, otherwise returns
the extended map; the receiver is shared, not modified. -/
def hamtInsert {α : Type} (k : Nat) (v : α) (m : List (Nat × α)) :
    Option (List (Nat × α)) :=
  if (m.lookup k).isSome then none else some ((k, v) :: m)

/-- `Hamt::update`: fails when the key is absent (`KeyNotFound`) or when the
closure fails on the present value; otherwise replaces that value, returning
a new map. -/
def hamtUpdate {α : Type} (k : Nat) (f : α → Except VoteError α) :
    List (Nat × α) → Except UpdateErrorK (List (Nat × α))
  | [] => .error .keyNotFound
  | (k', v) :: rest =>
    if k = k' then
      match f v with
      | .ok v' => .ok ((k', v') :: rest)
      | .error e => .error (.valueError e)
    else
      match hamtUpdate k f rest with
      | .ok rest' => .ok ((k', v) :: rest')
      | .error e => .error e

/-- `VoteCast`: the vote-plan id it targets and the proposal index (the
payload is irrelevant to every claim and omitted). -/
structure VoteCast where
  votePlan : Nat
  proposalIndex : Nat
deriving DecidableEq

/-- Modelled from the spec (§4.8): `VotePlanManager::vote` — the cast must
target this plan, name a proposal in range, arrive inside
`[vote_start, vote_end]` while the manager is still `Voting`; the recorded
cast replaces the same account's prior cast for that proposal.  (The SHVZK
proof check of private casts is outside the model.) -/
def VotePlanManager.vote (blockDate : BlockDate) (identifier : Nat)
    (cast : VoteCast) (m : VotePlanManager) : Except VoteError VotePlanManager :=
  if m.plan.pid ≠ cast.votePlan then .error .planMismatch
  else if m.plan.proposalsCount ≤ cast.proposalIndex then .error .proposalOutOfRange
  else if m.status ≠ .voting then .error .notVoting
  else if ¬(bdLe m.plan.voteStart blockDate ∧ bdLe blockDate m.plan.voteEnd) then
    .error .outsideVotingWindow
  else
    .ok { m with
          casts := (identifier, cast.proposalIndex) ::
            m.casts.filter
              (fun c => ¬(c.1 = identifier ∧ c.2 = cast.proposalIndex)) }

/-- Modelled from the spec (§4.8): `VotePlanManager::public_tally` —
`Voting → Finished` for a public plan when
`vote_end ≤ d ≤ committee_end` and the signer is a committee member. -/
def VotePlanManager.publicTally (blockDate : BlockDate) (committeeId : Nat)
    (m : VotePlanManager) : Except VoteError VotePlanManager :=
  if m.plan.payloadType ≠ .publicPayload then .error .wrongPayloadKind
  else if ¬(bdLe m.plan.voteEnd blockDate ∧ bdLe blockDate m.plan.committeeEnd) then
    .error .outsideCommitteeWindow
  else if committeeId ∉ m.committee then .error .notCommitteeMember
  else if m.status ≠ .voting then .error .notVoting
  else .ok { m with status := .finished }

/-- Modelled from the spec (§4.8): `VotePlanManager::start_private_tally` —
`Voting → TallyStarted` for a private plan when
`vote_end ≤ d ≤ committee_end` and the signer is a committee member. -/
def VotePlanManager.startPrivateTally (blockDate : BlockDate) (committeeId : Nat)
    (m : VotePlanManager) : Except VoteError VotePlanManager :=
  if m.plan.payloadType ≠ .privatePayload then .error .wrongPayloadKind
  else if ¬(bdLe m.plan.voteEnd blockDate ∧ bdLe blockDate m.plan.committeeEnd) then
    .error .outsideCommitteeWindow
  else if committeeId ∉ m.committee then .error .notCommitteeMember
  else if m.status ≠ .voting then .error .notVoting
  else .ok { m with status := .tallyStarted }

/-- Modelled from the spec (§4.8): `VotePlanManager::finalize_private_tally`
— `TallyStarted → Finished` (threshold bookkeeping is outside the model). -/
def VotePlanManager.finalizePrivateTally (m : VotePlanManager) :
    Except VoteError VotePlanManager :=
  if m.status ≠ .tallyStarted then .error .notVoting
  else .ok { m with status := .finished }

/-- `TallyProof` (`Public { id, .. }` or `Private { id, .. }`); only the
committee signer id is consumed by the ledger. -/
inductive TallyProof where
  | publicProof (id : Nat)
  | privateProof (id : Nat)
deriving DecidableEq

/-- `VotePlanLedger::new`. -/
def ledgerNew : VotePlanLedger := []

/-- `VotePlanLedger::add_vote_plan` (chain-impl-mockchain/src/vote/ledger.rs):
reject a plan whose `vote_end` has passed, then one whose `vote_start` has
passed, then a private plan with no committee public key, then a duplicate id;
otherwise insert a fresh manager under `vote_plan.to_id()`. -/
def addVotePlan (currentDate : BlockDate) (votePlan : VotePlan)
    (committee : List Nat) (l : VotePlanLedger) :
    Except VotePlanLedgerError VotePlanLedger :=
  if bdLt votePlan.voteEnd currentDate then
    .error (.votePlanVoteEndPassed currentDate votePlan.voteEnd)
  else if bdLt votePlan.voteStart currentDate then
    .error (.votePlanVoteStartStartedAlready currentDate votePlan.voteStart)
  else
    match votePlan.payloadType, votePlan.committeePublicKeys with
    | .privatePayload, [] => .error .votePlanMissingCommitteeMemberKey
    | _, _ =>
      match hamtInsert votePlan.pid (VotePlanManager.new votePlan committee) l with
      | none => .error (.votePlanInsertionError votePlan.pid)
      | some plans => .ok plans

/-- The `match r { Err(reason) => Err(VoteError { id, reason }), Ok(plans) =>
Ok(Self { plans }) }` epilogue shared verbatim by `apply_vote`,
`apply_committee_result` and `apply_encrypted_vote_tally`
(chain-impl-mockchain/src/vote/ledger.rs). -/
def wrapVoteError (id : Nat) (r : Except UpdateErrorK VotePlanLedger) :
    Except VotePlanLedgerError VotePlanLedger :=
  match r with
  | .error reason => .error (.voteError id reason)
  | .ok plans => .ok plans

/-- `VotePlanLedger::apply_vote` (chain-impl-mockchain/src/vote/ledger.rs):
update the targeted plan's manager through `VotePlanManager::vote`. -/
def applyVote (blockDate : BlockDate) (identifier : Nat) (vote : VoteCast)
    (l : VotePlanLedger) : Except VotePlanLedgerError VotePlanLedger :=
  wrapVoteError vote.votePlan
    (hamtUpdate vote.votePlan (VotePlanManager.vote blockDate identifier vote) l)

/-- The committee id carried by either `TallyProof` variant
(`TallyProof::Public { id, .. } => id, TallyProof::Private { id, .. } => id`
in `apply_committee_result`). -/
def tallyProofId (sig : TallyProof) : Nat :=
  match sig with
  | .publicProof i => i
  | .privateProof i => i

/-- The per-manager closure of `apply_committee_result`: `public_tally` for a
public proof, `finalize_private_tally` for a private one. -/
def committeeApplyStep (blockDate : BlockDate) (committeeId : Nat)
    (sig : TallyProof) (v : VotePlanManager) : Except VoteError VotePlanManager :=
  match sig with
  | .publicProof _ => v.publicTally blockDate committeeId
  | .privateProof _ => v.finalizePrivateTally

/-- `VotePlanLedger::apply_committee_result`
(chain-impl-mockchain/src/vote/ledger.rs): update the tally's plan through
`public_tally` or `finalize_private_tally` according to the proof kind, the
committee id taken from the proof.  (The stake snapshot, governance state and
action sink parameters do not touch the map and are omitted.) -/
def applyCommitteeResult (blockDate : BlockDate) (tallyId : Nat)
    (sig : TallyProof) (l : VotePlanLedger) :
    Except VotePlanLedgerError VotePlanLedger :=
  let committeeId := tallyProofId sig
  wrapVoteError tallyId
    (hamtUpdate tallyId (committeeApplyStep blockDate committeeId sig) l)

/-- `VotePlanLedger::apply_encrypted_vote_tally`
(chain-impl-mockchain/src/vote/ledger.rs): update the certificate's plan
through `start_private_tally`. -/
def applyEncryptedVoteTally (blockDate : BlockDate) (tallyId : Nat)
    (committeeId : Nat) (l : VotePlanLedger) :
    Except VotePlanLedgerError VotePlanLedger :=
  wrapVoteError tallyId
    (hamtUpdate tallyId (VotePlanManager.startPrivateTally blockDate committeeId) l)

/-! ### Lemmas about the result decoder -/

theorem scanTable_eq_find (q : Nat) (r : GroupElement q) :
    ∀ (n i : Nat),
      scanTable q r i ((List.range' (i + 1) n).map (fun j => ((j : Nat) : ZMod q))) =
        (List.range' (i + 1) n).find? (fun j => decide (((j : Nat) : ZMod q) = r)) := by
  intro n
  induction n with
  | zero => intro i; rfl
  | succ n ih =>
    intro i
    rw [List.range'_succ, List.map_cons]
    by_cases h : ((i + 1 : Nat) : ZMod q) = r
    · rw [List.find?_cons_of_pos _ (by simpa using h)]
      simp only [scanTable, if_pos h]
    · rw [List.find?_cons_of_neg _ (by simpa using h)]
      simp only [scanTable, if_neg h]
      exact ih (i + 1)

theorem stepLoopGo_eq_find (q : Nat) (r : GroupElement q) :
    ∀ (k i : Nat),
      stepLoopGo q r k i ((i : Nat) : ZMod q) =
        (List.range' i k).find? (fun j => decide (((j : Nat) : ZMod q) = r)) := by
  intro k
  induction k with
  | zero => intro i; rfl
  | succ k ih =>
    intro i
    rw [List.range'_succ]
    by_cases h : ((i : Nat) : ZMod q) = r
    · rw [List.find?_cons_of_pos _ (by simpa using h)]
      simp only [stepLoopGo, if_pos h]
    · rw [List.find?_cons_of_neg _ (by simpa using h)]
      have hcast : ((i : Nat) : ZMod q) + 1 = ((i + 1 : Nat) : ZMod q) := by
        push_cast
        ring
      simp only [stepLoopGo, if_neg h, hcast]
      exact ih (i + 1)

theorem decodeSlot_eq_claim (q ts vl : Nat) (r : GroupElement q) (h : 1 ≤ ts) :
    decodeSlot q ts vl r = some (decodeSlotClaim q ts vl r) := by
  unfold decodeSlot decodeSlotClaim
  by_cases h0 : r = 0
  · simp [h0]
  · have hscan : scanTable q r 0 (tableList q ts) =
        (List.range' 1 ts).find? (fun j => decide (((j : Nat) : ZMod q) = r)) := by
      have := scanTable_eq_find q r ts 0
      simpa [tableList] using this
    rw [if_neg h0, if_neg h0, hscan]
    cases hfind : (List.range' 1 ts).find? (fun j => decide (((j : Nat) : ZMod q) = r)) with
    | some j => rfl
    | none =>
      have hts : ¬ts = 0 := by omega
      simp only [hts, if_false, stepLoop]
      rw [stepLoopGo_eq_find q r (vl - (ts + 1)) (ts + 1)]

theorem resultLoop_eq_claim (q ts : Nat) (h : 1 ≤ ts) :
    ∀ (rs : List (GroupElement q)) (vl : Nat),
      resultLoop q ts vl rs = some (resultLoopClaim q ts vl rs) := by
  intro rs
  induction rs with
  | nil => intro vl; rfl
  | cons r rs ih =>
    intro vl
    rw [resultLoop, resultLoopClaim, decodeSlot_eq_claim q ts vl r h]
    cases decodeSlotClaim q ts vl r with
    | none => simp [ih vl]
    | some v => simp [ih (u64sub vl v)]

theorem u64sub_of_le {a b : Nat} (hb : b ≤ a) (ha : a < 2 ^ 64) : u64sub a b = a - b := by
  unfold u64sub
  omega

theorem stepLoopGo_lt (q : Nat) (r : GroupElement q) :
    ∀ (k i : Nat) (e : GroupElement q) (v : Nat),
      stepLoopGo q r k i e = some v → v < i + k := by
  intro k
  induction k with
  | zero => intro i e v h; exact absurd h (by simp [stepLoopGo])
  | succ k ih =>
    intro i e v h
    rw [stepLoopGo] at h
    by_cases he : e = r
    · rw [if_pos he] at h
      injection h with h
      omega
    · rw [if_neg he] at h
      have := ih (i + 1) (e + 1) v h
      omega

theorem stepLoop_lt (q : Nat) (r : GroupElement q) (vl i : Nat) (e : GroupElement q)
    (v : Nat) (h : stepLoop q r vl i e = some v) : v < vl := by
  by_cases hvi : vl ≤ i
  · rw [stepLoop, Nat.sub_eq_zero_of_le hvi] at h
    exact absurd h (by simp [stepLoopGo])
  · have := stepLoopGo_lt q r (vl - i) i e v h
    omega

theorem sumSome_cons_none (vs : List (Option Nat)) : sumSome (none :: vs) = sumSome vs := by
  simp [sumSome]

theorem sumSome_cons_some (v : Nat) (vs : List (Option Nat)) :
    sumSome (some v :: vs) = v + sumSome vs := by
  simp [sumSome]

theorem resultLoop_budget (q ts : Nat) :
    ∀ (rs : List (GroupElement q)) (vl : Nat) (votes : List (Option Nat)),
      vl < 2 ^ 64 → decodesWithinBudget q ts vl rs = true →
      resultLoop q ts vl rs = some votes → sumSome votes ≤ vl := by
  intro rs
  induction rs with
  | nil =>
    intro vl votes _ _ h
    have hv : ([] : List (Option Nat)) = votes := Option.some.inj h
    subst hv
    simp [sumSome]
  | cons r rs ih =>
    intro vl votes hvl hbud hres
    rw [resultLoop] at hres
    rw [decodesWithinBudget] at hbud
    cases hslot : decodeSlot q ts vl r with
    | none =>
      simp only [hslot] at hres
      exact absurd hres (by simp)
    | some o =>
      cases o with
      | none =>
        simp only [hslot] at hres hbud
        cases hrec : resultLoop q ts vl rs with
        | none => simp [hrec] at hres
        | some vs =>
          rw [hrec] at hres
          have hv : votes = none :: vs := by
            simpa using hres.symm
          subst hv
          rw [sumSome_cons_none]
          exact ih vl vs hvl hbud hrec
      | some v =>
        simp only [hslot] at hres hbud
        have hv : v ≤ vl ∧ decodesWithinBudget q ts (vl - v) rs = true := by
          simpa using hbud
        rw [u64sub_of_le hv.1 hvl] at hres
        cases hrec : resultLoop q ts (vl - v) rs with
        | none => simp [hrec] at hres
        | some vs =>
          rw [hrec] at hres
          have hveq : votes = some v :: vs := by
            simpa using hres.symm
          subst hveq
          rw [sumSome_cons_some]
          have := ih (vl - v) vs (by omega) hv.2 hrec
          omega

theorem sharesSum_nil (q : Nat) (i : Nat) : sharesSum q [] i = some 0 := rfl

theorem rResults_nil (q : Nat) (r2s : List (GroupElement q)) :
    rResults q r2s [] = some r2s := by
  unfold rResults
  have h : ∀ l : List (Nat × GroupElement q),
      l.mapM (fun p => (sharesSum q [] p.1).map (fun r1 => p.2 - r1)) =
        some (l.map Prod.snd) := by
    intro l
    induction l with
    | nil => rfl
    | cons p l ih =>
      have hf : (sharesSum q [] p.1).map (fun r1 => p.2 - r1) = some p.2 := by
        rw [sharesSum_nil]
        simp
      rw [List.mapM_cons, hf, ih]
      rfl
  rw [h, List.enum_map_snd]

theorem decodeSlot_isSome_of_pos (q ts vl : Nat) (r : GroupElement q) (h : 1 ≤ ts) :
    (decodeSlot q ts vl r).isSome = true := by
  unfold decodeSlot
  by_cases h0 : r = 0
  · simp [h0]
  · have hts : ¬ts = 0 := by omega
    cases hscan : scanTable q r 0 (tableList q ts) <;> simp [h0, hscan, hts]

theorem resultLoop_isSome (q ts : Nat) (h : 1 ≤ ts) :
    ∀ (rs : List (GroupElement q)) (vl : Nat),
      (resultLoop q ts vl rs).isSome = true := by
  intro rs
  induction rs with
  | nil => intro vl; rfl
  | cons r rs ih =>
    intro vl
    rw [resultLoop]
    cases hslot : decodeSlot q ts vl r with
    | none =>
      have := decodeSlot_isSome_of_pos q ts vl r h
      rw [hslot] at this
      exact absurd this (by simp)
    | some o =>
      cases o with
      | none => simpa using ih vl
      | some v => simpa using ih (u64sub vl v)

theorem resultLoop_isSome_of_zero (q ts : Nat) :
    ∀ (rs : List (GroupElement q)) (vl : Nat),
      (∀ r ∈ rs, r = 0) → (resultLoop q ts vl rs).isSome = true := by
  intro rs
  induction rs with
  | nil => intro vl _; rfl
  | cons r rs ih =>
    intro vl hz
    have hr : r = 0 := hz r (List.mem_cons_self r rs)
    have hslot : decodeSlot q ts vl r = some (some 0) := by
      unfold decodeSlot
      rw [if_pos hr]
    rw [resultLoop, hslot]
    simpa using ih (u64sub vl 0) (fun x hx => hz x (List.mem_cons_of_mem r hx))

/-! ### Claim theorems about the result decoder -/

/-- C1: for every slot of the tally the result decoder follows the two-stage
discrete-log search: identity ↦ `Some 0`; else the first table entry equal
to the slot element (position `k`, 0-indexed) ↦ `Some (k + 1)`; else the loop
single-steps from `table[table_size - 1] + g` with counter `i` starting at
`table_size + 1`, stopping at `e == R_j` (`Some i`) or once
`i ≥ remaining_budget` (`None`), and decoding proceeds to the next slot.
The two stages are stated declaratively in `decodeSlotClaim`/`resultLoopClaim`
as first-match searches over the corresponding counter ranges. -/
theorem result_two_stage_decode (q maxVotes tableSize : Nat)
    (r2s : List (GroupElement q)) (shares : List (List (GroupElement q)))
    (h : 1 ≤ tableSize) :
    result q maxVotes tableSize r2s shares =
      (rResults q r2s shares).map (resultLoopClaim q tableSize maxVotes) := by
  unfold result
  cases hr : rResults q r2s shares with
  | none => rfl
  | some rs => simpa using resultLoop_eq_claim q tableSize h rs maxVotes

/-- C1 witness: the two-stage characterization evaluated on the spec's first
concrete scenario shape (`max_votes = 20`, `table_size = 5`, slot tallies
`10` and `5`; `10` is only reachable through the single-step stage). -/
theorem result_two_stage_decode_check :
    1 ≤ 5 ∧
      result 101 20 5 [(10 : ZMod 101), (5 : ZMod 101)] [] =
        (rResults 101 [(10 : ZMod 101), (5 : ZMod 101)] []).map
          (resultLoopClaim 101 5 20) ∧
      result 101 20 5 [(10 : ZMod 101), (5 : ZMod 101)] [] =
        some [some 10, some 5] :=
  ⟨by decide, result_two_stage_decode 101 20 5 _ _ (by decide), by decide⟩

/-- C2 (amended): `remaining_budget` starts at `max_votes` and is decremented
by each recovered slot tally, and every tally recovered by the single-step
stage is strictly below the budget at its slot; but identity and table-scan
recoveries are not budget-checked, so the guarantee that the `Some` tallies
sum to at most `max_votes` holds only when every recovered tally is at most
the remaining budget at its slot (`decodesWithinBudget`); otherwise the `u64`
decrement wraps around and the sum can exceed `max_votes`
(`result_budget_cex`). -/
theorem result_budget_amended (q maxVotes tableSize : Nat)
    (r2s : List (GroupElement q)) (shares : List (List (GroupElement q)))
    (rs : List (GroupElement q)) (votes : List (Option Nat))
    (hmv : maxVotes < 2 ^ 64)
    (hrs : rResults q r2s shares = some rs)
    (hbud : decodesWithinBudget q tableSize maxVotes rs = true)
    (hres : result q maxVotes tableSize r2s shares = some votes) :
    sumSome votes ≤ maxVotes ∧
      ∀ (r : GroupElement q) (vl i : Nat) (e : GroupElement q) (v : Nat),
        stepLoop q r vl i e = some v → v < vl := by
  refine ⟨?_, fun r vl i e v h => stepLoop_lt q r vl i e v h⟩
  apply resultLoop_budget q tableSize rs maxVotes votes hmv hbud
  unfold result at hres
  rw [hrs] at hres
  exact hres

/-- C2 counterexample: with `max_votes = 2` and `table_size = 5`, a slot
whose element is `3·g` is recovered by the (budget-unchecked) table scan, so
the returned tallies sum to `3 > 2` and the `u64` decrement `2 - 3`
underflows (wrapping in the embedding). -/
theorem result_budget_cex :
    result 11 2 5 [(3 : ZMod 11)] [] = some [some 3] ∧ 2 < sumSome [some 3] := by
  exact ⟨by decide, by decide⟩

/-- C2 witness: the amended budget bound evaluated at `max_votes = 20`,
`table_size = 5`, slot tallies `10` and `5` (both within budget). -/
theorem result_budget_amended_check :
    sumSome [some 10, some 5] ≤ 20 :=
  (result_budget_amended 101 20 5 [(10 : ZMod 101), (5 : ZMod 101)] []
    [(10 : ZMod 101), (5 : ZMod 101)] [some 10, some 5]
    (by decide) (by decide) (by decide) (by decide)).1

/-- C10: with `table_size = 0` and a slot element that is neither the
identity nor found by the (empty) table scan, `result` panics on the
out-of-bounds index `table[table_size - 1]`; with `table_size ≥ 1` (or with
every slot decoding to the identity) no such panic occurs. -/
theorem result_table_zero_panics :
    result 11 5 0 [(1 : ZMod 11)] [] = none ∧
      (∀ (q maxVotes tableSize : Nat) (r2s : List (GroupElement q)),
        1 ≤ tableSize → (result q maxVotes tableSize r2s []).isSome = true) ∧
      (∀ (q maxVotes : Nat) (r2s : List (GroupElement q)),
        (∀ r ∈ r2s, r = 0) → (result q maxVotes 0 r2s []).isSome = true) := by
  refine ⟨by decide, ?_, ?_⟩
  · intro q maxVotes tableSize r2s h
    unfold result
    rw [rResults_nil]
    exact resultLoop_isSome q tableSize h r2s maxVotes
  · intro q maxVotes r2s hz
    unfold result
    rw [rResults_nil]
    exact resultLoop_isSome_of_zero q 0 r2s maxVotes hz

/-- C10 witness: totality at `table_size = 5` on a non-identity slot, and at
`table_size = 0` on an all-identity tally, both evaluated concretely. -/
theorem result_table_zero_panics_check :
    (result 11 20 5 [(3 : ZMod 11)] []).isSome = true ∧
      (result 11 20 0 [(0 : ZMod 11)] []).isSome = true :=
  ⟨result_table_zero_panics.2.1 11 20 5 [(3 : ZMod 11)] (by decide),
   result_table_zero_panics.2.2 11 20 [(0 : ZMod 11)] (by decide)⟩

/-! ### Lemmas about byte serialization -/

theorem geFromBytes_geToBytes (q : Nat) (h1 : 0 < q) (h2 : q ≤ 65536)
    (x : GroupElement q) : geFromBytes q (geToBytes q x) = some x := by
  haveI : NeZero q := ⟨Nat.pos_iff_ne_zero.mp h1⟩
  have hval : ZMod.val x < q := ZMod.val_lt x
  have hx : ZMod.val x < 65536 := lt_of_lt_of_le hval h2
  have hd : ZMod.val x / 256 % 256 = ZMod.val x / 256 := Nat.mod_eq_of_lt (by omega)
  have hv : ZMod.val x / 256 % 256 * 256 + ZMod.val x % 256 = ZMod.val x := by
    rw [hd]
    omega
  have hcond : ZMod.val x / 256 % 256 ≤ 255 ∧ ZMod.val x % 256 ≤ 255 ∧
      ZMod.val x / 256 % 256 * 256 + ZMod.val x % 256 < q := by
    refine ⟨by omega, by omega, ?_⟩
    rw [hv]
    exact hval
  show (if ZMod.val x / 256 % 256 ≤ 255 ∧ ZMod.val x % 256 ≤ 255 ∧
      ZMod.val x / 256 % 256 * 256 + ZMod.val x % 256 < q then
      some (((ZMod.val x / 256 % 256 * 256 + ZMod.val x % 256 : Nat) : ZMod q))
    else none) = some x
  rw [if_pos hcond, hv, ZMod.natCast_zmod_val]

theorem groupElementsToBytes_cons (q : Nat) (x : GroupElement q)
    (xs : List (GroupElement q)) :
    groupElementsToBytes q (x :: xs) = geToBytes q x ++ groupElementsToBytes q xs := by
  simp [groupElementsToBytes]

theorem groupElementsToBytes_length (q : Nat) :
    ∀ xs : List (GroupElement q),
      (groupElementsToBytes q xs).length = groupElementBytesLen * xs.length := by
  intro xs
  induction xs with
  | nil => rfl
  | cons x xs ih =>
    rw [groupElementsToBytes_cons]
    simp only [List.length_append, List.length_cons, ih]
    show 2 + groupElementBytesLen * xs.length = groupElementBytesLen * (xs.length + 1)
    unfold groupElementBytesLen
    omega

theorem chunk2_flatten (q : Nat) :
    ∀ xs : List (GroupElement q),
      chunk2 ((xs.map (geToBytes q)).flatten) = xs.map (geToBytes q) := by
  intro xs
  induction xs with
  | nil => rfl
  | cons x xs ih =>
    show chunk2 (geToBytes q x ++ (xs.map (geToBytes q)).flatten) = _
    show chunk2 (ZMod.val x / 256 % 256 :: ZMod.val x % 256 :: (xs.map (geToBytes q)).flatten) = _
    rw [chunk2, ih]
    rfl

theorem mapM_geFromBytes (q : Nat) (h1 : 0 < q) (h2 : q ≤ 65536) :
    ∀ xs : List (GroupElement q),
      (xs.map (geToBytes q)).mapM (geFromBytes q) = some xs := by
  intro xs
  induction xs with
  | nil => rfl
  | cons x xs ih =>
    rw [List.map_cons, List.mapM_cons, geFromBytes_geToBytes q h1 h2 x, ih]
    rfl

theorem groupElements_roundtrip (q : Nat) (h1 : 0 < q) (h2 : q ≤ 65536)
    (xs : List (GroupElement q)) :
    groupElementsFromBytes q (groupElementsToBytes q xs) = some xs := by
  have hmod : (groupElementsToBytes q xs).length % groupElementBytesLen = 0 := by
    rw [groupElementsToBytes_length]
    unfold groupElementBytesLen
    omega
  unfold groupElementsFromBytes
  rw [if_pos hmod]
  show List.mapM (geFromBytes q) (chunk2 ((xs.map (geToBytes q)).flatten)) = some xs
  rw [chunk2_flatten, mapM_geFromBytes q h1 h2]

theorem ctFromBytes_ctToBytes (q : Nat) (h1 : 0 < q) (h2 : q ≤ 65536)
    (c : Ciphertext q) : ctFromBytes q (ctToBytes q c) = some c := by
  have e1 := geFromBytes_geToBytes q h1 h2 c.c1
  have e2 := geFromBytes_geToBytes q h1 h2 c.c2
  show (match geFromBytes q (geToBytes q c.c1), geFromBytes q (geToBytes q c.c2) with
    | some x, some y => some (Ciphertext.mk x y)
    | _, _ => none) = some c
  rw [e1, e2]

theorem encryptedTallyToBytes_cons (q : Nat) (c : Ciphertext q)
    (cs : List (Ciphertext q)) :
    encryptedTallyToBytes q (c :: cs) = ctToBytes q c ++ encryptedTallyToBytes q cs := by
  simp [encryptedTallyToBytes]

theorem encryptedTallyToBytes_length (q : Nat) :
    ∀ cs : List (Ciphertext q),
      (encryptedTallyToBytes q cs).length = ciphertextBytesLen * cs.length := by
  intro cs
  induction cs with
  | nil => rfl
  | cons c cs ih =>
    rw [encryptedTallyToBytes_cons]
    simp only [List.length_append, List.length_cons, ih]
    show 4 + ciphertextBytesLen * cs.length = ciphertextBytesLen * (cs.length + 1)
    unfold ciphertextBytesLen
    omega

theorem chunk4_flatten (q : Nat) :
    ∀ cs : List (Ciphertext q),
      chunk4 ((cs.map (ctToBytes q)).flatten) = cs.map (ctToBytes q) := by
  intro cs
  induction cs with
  | nil => rfl
  | cons c cs ih =>
    show chunk4 (ctToBytes q c ++ (cs.map (ctToBytes q)).flatten) = _
    show chunk4 (ZMod.val c.c1 / 256 % 256 :: ZMod.val c.c1 % 256 ::
      ZMod.val c.c2 / 256 % 256 :: ZMod.val c.c2 % 256 ::
      (cs.map (ctToBytes q)).flatten) = _
    rw [chunk4, ih]
    rfl

theorem mapM_ctFromBytes (q : Nat) (h1 : 0 < q) (h2 : q ≤ 65536) :
    ∀ cs : List (Ciphertext q),
      (cs.map (ctToBytes q)).mapM (ctFromBytes q) = some cs := by
  intro cs
  induction cs with
  | nil => rfl
  | cons c cs ih =>
    rw [List.map_cons, List.mapM_cons, ctFromBytes_ctToBytes q h1 h2 c, ih]
    rfl

theorem encryptedTally_roundtrip (q : Nat) (h1 : 0 < q) (h2 : q ≤ 65536)
    (cs : List (Ciphertext q)) :
    encryptedTallyFromBytes q (encryptedTallyToBytes q cs) = some cs := by
  have hmod : (encryptedTallyToBytes q cs).length % ciphertextBytesLen = 0 := by
    rw [encryptedTallyToBytes_length]
    unfold ciphertextBytesLen
    omega
  unfold encryptedTallyFromBytes
  rw [if_pos hmod]
  show List.mapM (ctFromBytes q) (chunk4 ((cs.map (ctToBytes q)).flatten)) = some cs
  rw [chunk4_flatten, mapM_ctFromBytes q h1 h2]

theorem beVal8_u64be {n : Nat} (hn : n < 2 ^ 64) :
    beVal8 (n / 256 ^ 7 % 256) (n / 256 ^ 6 % 256) (n / 256 ^ 5 % 256)
      (n / 256 ^ 4 % 256) (n / 256 ^ 3 % 256) (n / 256 ^ 2 % 256)
      (n / 256 % 256) (n % 256) = n := by
  unfold beVal8
  omega

theorem tdsReadElems_serialize (q : Nat) (h1 : 0 < q) (h2 : q ≤ 65536) :
    ∀ xs : List (GroupElement q),
      tdsReadElems q xs.length (groupElementsToBytes q xs) = some (.ok xs) := by
  intro xs
  induction xs with
  | nil => rfl
  | cons x xs ih =>
    show tdsReadElems q (xs.length + 1) (groupElementsToBytes q (x :: xs)) = _
    rw [groupElementsToBytes_cons, tdsReadElems]
    have hlen2 : (geToBytes q x).length = groupElementBytesLen := rfl
    have hc : ¬((geToBytes q x ++ groupElementsToBytes q xs).length < groupElementBytesLen) := by
      rw [List.length_append, hlen2]
      omega
    rw [if_neg hc, ← hlen2, List.take_left, List.drop_left,
      geFromBytes_geToBytes q h1 h2 x, ih]

theorem tallyDecryptShareRead_serialize (q : Nat) (h1 : 0 < q) (h2 : q ≤ 65536)
    (xs : List (GroupElement q)) (hlen : xs.length < 2 ^ 64) :
    tallyDecryptShareRead q (tallyDecryptShareSerialize q xs) = some (.ok xs) := by
  show tallyDecryptShareRead q (u64be xs.length ++ groupElementsToBytes q xs) = _
  rw [u64be]
  show tdsReadElems q
    (beVal8 (xs.length / 256 ^ 7 % 256) (xs.length / 256 ^ 6 % 256)
      (xs.length / 256 ^ 5 % 256) (xs.length / 256 ^ 4 % 256)
      (xs.length / 256 ^ 3 % 256) (xs.length / 256 ^ 2 % 256)
      (xs.length / 256 % 256) (xs.length % 256))
    (groupElementsToBytes q xs) = _
  rw [beVal8_u64be hlen]
  exact tdsReadElems_serialize q h1 h2 xs

/-! ### Claim theorems about byte serialization -/

theorem mapM_none {α β : Type} (f : α → Option β) :
    ∀ l : List α, (∃ a ∈ l, f a = none) → l.mapM f = none := by
  intro l
  induction l with
  | nil =>
    rintro ⟨a, ha, _⟩
    simp at ha
  | cons x l ih =>
    rintro ⟨a, ha, hfa⟩
    rw [List.mapM_cons]
    rcases List.mem_cons.mp ha with h | h
    · subst h
      rw [hfa]
      rfl
    · cases hfx : f x with
      | none => rfl
      | some b =>
        rw [ih ⟨a, h, hfa⟩]
        rfl

/-- C5 (amended): for `EncryptedTally`, `TallyState` and `TallyDecryptShare`,
`from_bytes (to_bytes x) = Some x`; `from_bytes` returns `None` both when the
buffer length is not a multiple of the element width (in particular, on
truncation or extension by a non-multiple of the width) and when any
element-width chunk fails to parse (a non-canonical encoding); but truncating
or extending by whole well-formed elements yields `Some` of a *different*
value, not `None` (`serialization_truncation_cex`). -/
theorem serialization_roundtrip_amended (q : Nat) (h1 : 0 < q) (h2 : q ≤ 65536) :
    (∀ xs : List (GroupElement q),
        tallyStateFromBytes q (tallyStateToBytes q xs) = some xs) ∧
      (∀ xs : List (GroupElement q),
        tallyDecryptShareFromBytes q (tallyDecryptShareToBytes q xs) = some xs) ∧
      (∀ cs : List (Ciphertext q),
        encryptedTallyFromBytes q (encryptedTallyToBytes q cs) = some cs) ∧
      (∀ bs : List Nat, bs.length % groupElementBytesLen ≠ 0 →
        tallyStateFromBytes q bs = none ∧ tallyDecryptShareFromBytes q bs = none) ∧
      (∀ bs : List Nat, bs.length % ciphertextBytesLen ≠ 0 →
        encryptedTallyFromBytes q bs = none) ∧
      (∀ bs : List Nat, (∃ c ∈ chunk2 bs, geFromBytes q c = none) →
        tallyStateFromBytes q bs = none ∧ tallyDecryptShareFromBytes q bs = none) ∧
      (∀ bs : List Nat, (∃ c ∈ chunk4 bs, ctFromBytes q c = none) →
        encryptedTallyFromBytes q bs = none) := by
  refine ⟨fun xs => groupElements_roundtrip q h1 h2 xs,
    fun xs => groupElements_roundtrip q h1 h2 xs,
    fun cs => encryptedTally_roundtrip q h1 h2 cs, ?_, ?_, ?_, ?_⟩
  · intro bs hbs
    constructor <;> · show groupElementsFromBytes q bs = none
                      unfold groupElementsFromBytes
                      rw [if_neg hbs]
  · intro bs hbs
    unfold encryptedTallyFromBytes
    rw [if_neg hbs]
  · intro bs hex
    constructor <;>
      · show groupElementsFromBytes q bs = none
        unfold groupElementsFromBytes
        by_cases hlen : bs.length % groupElementBytesLen = 0
        · rw [if_pos hlen]
          exact mapM_none (geFromBytes q) (chunk2 bs) hex
        · rw [if_neg hlen]
  · intro bs hex
    unfold encryptedTallyFromBytes
    by_cases hlen : bs.length % ciphertextBytesLen = 0
    · rw [if_pos hlen]
      exact mapM_none (ctFromBytes q) (chunk4 bs) hex
    · rw [if_neg hlen]

/-- C5 counterexample: dropping one whole element (2 bytes) from the 4-byte
serialization of a two-element `TallyState` is a strict truncation, yet
`from_bytes` returns `Some` of the shorter state instead of `None`. -/
theorem serialization_truncation_cex :
    tallyStateFromBytes 11 ((tallyStateToBytes 11 [(0 : ZMod 11), 0]).take 2) =
        some [(0 : ZMod 11)] ∧
      ((tallyStateToBytes 11 [(0 : ZMod 11), 0]).take 2).length <
        (tallyStateToBytes 11 [(0 : ZMod 11), 0]).length := by
  exact ⟨by decide, by decide⟩

/-- C5 witness: the amended round-trip, non-multiple rejection and
non-canonical-chunk rejection evaluated at `q = 11` on concrete values
(`[255, 255]` has element-multiple length but a non-canonical chunk). -/
theorem serialization_roundtrip_check :
    tallyStateFromBytes 11 (tallyStateToBytes 11 [(3 : ZMod 11), 4]) =
        some [(3 : ZMod 11), 4] ∧
      encryptedTallyFromBytes 11 [0, 0, 0] = none ∧
      tallyStateFromBytes 11 [255, 255] = none :=
  ⟨(serialization_roundtrip_amended 11 (by decide) (by decide)).1 [(3 : ZMod 11), 4],
   (serialization_roundtrip_amended 11 (by decide) (by decide)).2.2.2.2.1 [0, 0, 0]
     (by decide),
   ((serialization_roundtrip_amended 11 (by decide) (by decide)).2.2.2.2.2.1
     [255, 255] ⟨[255, 255], by decide, by decide⟩).1⟩

/-- C7 (amended): `TallyDecryptShare::serialize` is a `u64` big-endian count
followed by that many fixed-width group elements and `Readable::read` parses
exactly that layout back; but the `to_bytes` serializations of
`TallyDecryptShare` and `TallyState` are dense element concatenations with no
length header (their length is exactly `width · count`), parsed by
`from_bytes` via length divisibility. -/
theorem tallyShare_layout_amended (q : Nat) (h1 : 0 < q) (h2 : q ≤ 65536)
    (xs : List (GroupElement q)) (hlen : xs.length < 2 ^ 64) :
    tallyDecryptShareSerialize q xs = u64be xs.length ++ groupElementsToBytes q xs ∧
      tallyDecryptShareRead q (tallyDecryptShareSerialize q xs) = some (.ok xs) ∧
      (tallyDecryptShareSerialize q xs).length =
        8 + groupElementBytesLen * xs.length ∧
      (tallyStateToBytes q xs).length = groupElementBytesLen * xs.length ∧
      tallyStateFromBytes q (tallyStateToBytes q xs) = some xs := by
  refine ⟨rfl, tallyDecryptShareRead_serialize q h1 h2 xs hlen, ?_,
    groupElementsToBytes_length q xs, groupElements_roundtrip q h1 h2 xs⟩
  show (u64be xs.length ++ groupElementsToBytes q xs).length = _
  rw [List.length_append, groupElementsToBytes_length]
  rfl

/-- C7 counterexample: `TallyState::to_bytes` of a one-element state is the
bare 2-byte element, not a `u64` length header followed by the element. -/
theorem tallyShare_layout_cex :
    tallyStateToBytes 11 [(0 : ZMod 11)] ≠
      u64be 1 ++ groupElementsToBytes 11 [(0 : ZMod 11)] := by
  decide

/-- C7 witness: the amended layout facts evaluated at `q = 11`,
`xs = [3, 4]`. -/
theorem tallyShare_layout_check :
    tallyDecryptShareRead 11 (tallyDecryptShareSerialize 11 [(3 : ZMod 11), 4]) =
        some (.ok [(3 : ZMod 11), 4]) ∧
      (tallyStateToBytes 11 [(3 : ZMod 11), 4]).length = 4 :=
  ⟨(tallyShare_layout_amended 11 (by decide) (by decide) [(3 : ZMod 11), 4]
      (by decide)).2.1,
   (tallyShare_layout_amended 11 (by decide) (by decide) [(3 : ZMod 11), 4]
      (by decide)).2.2.2.1⟩

/-- C9: on a well-formed length-prefixed buffer (count 1) whose single
element slice `[255, 255]` is a non-canonical encoding (value `65535 ≥ q`),
`Readable::read` panics on the `unwrap` (modelled `none`) instead of
returning a `ReadError`, while `from_bytes` on the same element bytes
returns `None`. -/
theorem read_panics_on_noncanonical :
    tallyDecryptShareRead 11 (u64be 1 ++ [255, 255]) = none ∧
      tallyDecryptShareFromBytes 11 [255, 255] = none := by
  exact ⟨rfl, rfl⟩

/-! ### Homomorphic tally accumulation -/

theorem zipWith_get? {α : Type} (f : α → α → α) (d : α) :
    ∀ (l1 l2 : List α) (j : Nat), j < l1.length → j < l2.length →
      (List.zipWith f l1 l2).get? j = some (f (l1.getD j d) (l2.getD j d)) := by
  intro l1
  induction l1 with
  | nil => intro l2 j h1 _; simp at h1
  | cons a l1 ih =>
    intro l2 j h1 h2
    cases l2 with
    | nil => simp at h2
    | cons b l2 =>
      cases j with
      | zero => rfl
      | succ j =>
        show (List.zipWith f l1 l2).get? j = _
        exact ih l2 j (by simpa using h1) (by simpa using h2)

/-- C6: `EncryptedTally::add(vote, weight)` with the matching number of slots
updates slot `j` to `tally[j] + vote[j] · weight` (scalar-multiplying the
ciphertext and adding component-wise), and with a mismatched length it fails
fatally — the `assert_eq!` panic, modelled as `none`, with no recoverable
error value. -/
theorem encryptedTallyAdd_spec (q : Nat) (r vote : List (Ciphertext q)) (w : Nat) :
    (vote.length = r.length →
      (encryptedTallyAdd q r vote w).isSome = true ∧
        ∀ r', encryptedTallyAdd q r vote w = some r' →
          r'.length = r.length ∧
            ∀ j, j < r.length →
              r'.get? j = some (ctAdd (r.getD j (ctZero q))
                (ctMulScalar (vote.getD j (ctZero q)) w))) ∧
      (vote.length ≠ r.length → encryptedTallyAdd q r vote w = none) := by
  constructor
  · intro hlen
    unfold encryptedTallyAdd
    rw [if_pos hlen]
    refine ⟨rfl, ?_⟩
    intro r' hr'
    have hr'' : r' = List.zipWith (fun ri ci => ctAdd ri (ctMulScalar ci w)) r vote :=
      (Option.some.inj hr').symm
    subst hr''
    constructor
    · rw [List.length_zipWith, hlen]
      exact min_self _
    · intro j hj
      exact zipWith_get? _ (ctZero q) r vote j hj (by omega)
  · intro hlen
    unfold encryptedTallyAdd
    rw [if_neg hlen]

/-- C6 witness: one slot with `tally = (g, 2g)`, `vote = (3g, 4g)` and
weight `2` becomes `(7g, 10g)`; a mismatched vote length panics. -/
theorem encryptedTallyAdd_check :
    List.get? [(⟨7, 10⟩ : Ciphertext 11)] 0 =
        some (ctAdd (⟨1, 2⟩ : Ciphertext 11) (ctMulScalar ⟨3, 4⟩ 2)) ∧
      encryptedTallyAdd 11 [(⟨1, 2⟩ : Ciphertext 11)] [] 2 = none :=
  ⟨((((encryptedTallyAdd_spec 11 [⟨1, 2⟩] [⟨3, 4⟩] 2).1 rfl).2 [⟨7, 10⟩]
      (by decide)).2 0 (by decide)),
   (encryptedTallyAdd_spec 11 [⟨1, 2⟩] [] 2).2 (by decide)⟩

/-! ### Lemmas about the vote-plan ledger -/

theorem bdLt_false_le {a b : BlockDate} (h : bdLt a b = false) : bdLe b a = true := by
  cases a
  cases b
  simp only [bdLt, bdLe, Bool.or_eq_true, Bool.and_eq_true, decide_eq_true_eq,
    Bool.or_eq_false_iff, Bool.and_eq_false_iff, decide_eq_false_iff_not] at h ⊢
  omega

theorem hamtInsert_spec {α : Type} (k : Nat) (v : α) (m m' : List (Nat × α))
    (h : hamtInsert k v m = some m') :
    m.lookup k = none ∧ m'.lookup k = some v ∧
      ∀ j, j ≠ k → m'.lookup j = m.lookup j := by
  unfold hamtInsert at h
  by_cases hl : (m.lookup k).isSome
  · rw [if_pos hl] at h
    cases h
  · rw [if_neg hl] at h
    have hm' : m' = (k, v) :: m := (Option.some.inj h).symm
    subst hm'
    refine ⟨Option.not_isSome_iff_eq_none.mp hl, ?_, ?_⟩
    · simp [List.lookup]
    · intro j hj
      have hjk : (j == k) = false := beq_eq_false_iff_ne.mpr hj
      simp [List.lookup, hjk]

theorem hamtUpdate_spec {α : Type} (k : Nat) (f : α → Except VoteError α) :
    ∀ (m m' : List (Nat × α)), hamtUpdate k f m = .ok m' →
      (∃ v v', m.lookup k = some v ∧ f v = .ok v' ∧ m'.lookup k = some v') ∧
        ∀ j, j ≠ k → m'.lookup j = m.lookup j := by
  intro m
  induction m with
  | nil =>
    intro m' h
    exact absurd h (by simp [hamtUpdate])
  | cons p rest ih =>
    obtain ⟨k', v⟩ := p
    intro m' h
    rw [hamtUpdate] at h
    by_cases hk : k = k'
    · rw [if_pos hk] at h
      cases hf : f v with
      | error e =>
        simp only [hf] at h
        exact Except.noConfusion h
      | ok v' =>
        simp only [hf] at h
        have hm' : m' = (k', v') :: rest := (Except.ok.inj h).symm
        subst hm'
        subst hk
        refine ⟨⟨v, v', ?_, hf, ?_⟩, ?_⟩
        · simp [List.lookup]
        · simp [List.lookup]
        · intro j hj
          have hjk : (j == k) = false := beq_eq_false_iff_ne.mpr hj
          simp [List.lookup, hjk]
    · rw [if_neg hk] at h
      cases hrec : hamtUpdate k f rest with
      | error e =>
        simp only [hrec] at h
        exact Except.noConfusion h
      | ok rest' =>
        simp only [hrec] at h
        have hm' : m' = (k', v) :: rest' := (Except.ok.inj h).symm
        subst hm'
        obtain ⟨⟨w, w', hw, hfw, hw'⟩, hframe⟩ := ih rest' hrec
        have hkk' : (k == k') = false := beq_eq_false_iff_ne.mpr hk
        refine ⟨⟨w, w', ?_, hfw, ?_⟩, ?_⟩
        · simp [List.lookup, hkk', hw]
        · simp [List.lookup, hkk', hw']
        · intro j hj
          by_cases hjk : j = k'
          · subst hjk
            simp [List.lookup]
          · have hjk' : (j == k') = false := beq_eq_false_iff_ne.mpr hjk
            simp [List.lookup, hjk', hframe j hj]

theorem addVotePlan_ok_insert (d : BlockDate) (p : VotePlan) (c : List Nat)
    (l l' : VotePlanLedger) (h : addVotePlan d p c l = .ok l') :
    hamtInsert p.pid (VotePlanManager.new p c) l = some l' := by
  unfold addVotePlan at h
  by_cases h1 : bdLt p.voteEnd d = true
  · rw [if_pos h1] at h
    cases h
  · rw [if_neg h1] at h
    by_cases h2 : bdLt p.voteStart d = true
    · rw [if_pos h2] at h
      cases h
    · rw [if_neg h2] at h
      have hmatch : ∀ res : Except VotePlanLedgerError VotePlanLedger,
          ((match hamtInsert p.pid (VotePlanManager.new p c) l with
            | none => Except.error (VotePlanLedgerError.votePlanInsertionError p.pid)
            | some plans => Except.ok plans) = .ok l' →
            hamtInsert p.pid (VotePlanManager.new p c) l = some l') := by
        intro _
        cases hins : hamtInsert p.pid (VotePlanManager.new p c) l with
        | none =>
          intro hcontra
          simp only [hins] at hcontra
          exact Except.noConfusion hcontra
        | some plans =>
          intro hok
          simp only [hins] at hok
          rw [Except.ok.inj hok]
      cases hpt : p.payloadType with
      | publicPayload =>
        simp only [hpt] at h
        exact hmatch (.ok l') h
      | privatePayload =>
        cases hkeys : p.committeePublicKeys with
        | nil =>
          simp only [hpt, hkeys] at h
          cases h
        | cons key keys =>
          simp only [hpt, hkeys] at h
          exact hmatch (.ok l') h

theorem wrapVoteError_ok (id : Nat) (r : Except UpdateErrorK VotePlanLedger)
    (l' : VotePlanLedger) (h : wrapVoteError id r = .ok l') : r = .ok l' := by
  cases r with
  | error e => exact Except.noConfusion h
  | ok plans => rw [Except.ok.inj h]

theorem applyVote_ok_update (d : BlockDate) (idf : Nat) (cast : VoteCast)
    (l l' : VotePlanLedger) (h : applyVote d idf cast l = .ok l') :
    hamtUpdate cast.votePlan (VotePlanManager.vote d idf cast) l = .ok l' :=
  wrapVoteError_ok cast.votePlan _ l' h

theorem applyCommitteeResult_ok_update (d : BlockDate) (tid : Nat)
    (sig : TallyProof) (l l' : VotePlanLedger)
    (h : applyCommitteeResult d tid sig l = .ok l') :
    hamtUpdate tid (committeeApplyStep d (tallyProofId sig) sig) l = .ok l' :=
  wrapVoteError_ok tid _ l' h

theorem applyEncryptedVoteTally_ok_update (d : BlockDate) (tid cid : Nat)
    (l l' : VotePlanLedger) (h : applyEncryptedVoteTally d tid cid l = .ok l') :
    hamtUpdate tid (VotePlanManager.startPrivateTally d cid) l = .ok l' :=
  wrapVoteError_ok tid _ l' h

/-! ### Claim theorems about the vote-plan ledger -/

/-- C3 counterexample: a plan with `vote_end < vote_start` and
`committee_end < vote_end` is accepted by `add_vote_plan` (at a current date
preceding both), so the resulting reachable ledger contains a plan violating
`vote_start ≤ vote_end ≤ committee_end`. -/
theorem ledger_date_invariant_cex :
    addVotePlan ⟨0, 3⟩ ⟨⟨0, 10⟩, ⟨0, 5⟩, ⟨0, 0⟩, 1, .publicPayload, [], 7⟩ [] ledgerNew =
        .ok [(7, VotePlanManager.new ⟨⟨0, 10⟩, ⟨0, 5⟩, ⟨0, 0⟩, 1, .publicPayload, [], 7⟩ [])] ∧
      bdLt (⟨0, 5⟩ : BlockDate) ⟨0, 10⟩ = true ∧
      bdLt (⟨0, 0⟩ : BlockDate) ⟨0, 5⟩ = true :=
  ⟨rfl, rfl, rfl⟩

/-- C3 (amended): `add_vote_plan` does not compare the plan's dates with each
other, so `vote_start ≤ vote_end ≤ committee_end` is *not* enforced at
insertion and ledgers containing plans that violate it are reachable
(`ledger_date_invariant_cex`); what insertion does guarantee is
`current_date ≤ vote_start` and `current_date ≤ vote_end`. -/
theorem ledger_date_invariant_amended (d : BlockDate) (p : VotePlan)
    (c : List Nat) (l l' : VotePlanLedger) (h : addVotePlan d p c l = .ok l') :
    bdLe d p.voteStart = true ∧ bdLe d p.voteEnd = true := by
  unfold addVotePlan at h
  by_cases h1 : bdLt p.voteEnd d = true
  · rw [if_pos h1] at h
    cases h
  · rw [if_neg h1] at h
    by_cases h2 : bdLt p.voteStart d = true
    · rw [if_pos h2] at h
      cases h
    · exact ⟨bdLt_false_le (Bool.not_eq_true _ ▸ h2),
        bdLt_false_le (Bool.not_eq_true _ ▸ h1)⟩

/-- C3 witness: the dates guaranteed at insertion, evaluated on the
counterexample's accepted plan. -/
theorem ledger_date_invariant_amended_check :
    bdLe (⟨0, 3⟩ : BlockDate) ⟨0, 10⟩ = true ∧
      bdLe (⟨0, 3⟩ : BlockDate) ⟨0, 5⟩ = true :=
  ledger_date_invariant_amended ⟨0, 3⟩
    ⟨⟨0, 10⟩, ⟨0, 5⟩, ⟨0, 0⟩, 1, .publicPayload, [], 7⟩ [] ledgerNew
    [(7, VotePlanManager.new ⟨⟨0, 10⟩, ⟨0, 5⟩, ⟨0, 0⟩, 1, .publicPayload, [], 7⟩ [])] rfl

/-- C4: `add_vote_plan(current_date, plan, committee)` rejects, in this
priority order: `current_date > vote_end` (`VotePlanVoteEndPassed`), then
`current_date > vote_start` (`VotePlanVoteStartStartedAlready`), then a
private plan with no committee public key
(`VotePlanMissingCommitteeMemberKey`), then a duplicate plan id
(`VotePlanInsertionError`); in all remaining cases it returns `Ok` with a
ledger holding a fresh manager (`VotePlanManager::new`) under the plan id. -/
theorem addVotePlan_error_cases (d : BlockDate) (p : VotePlan) (c : List Nat)
    (l : VotePlanLedger) :
    (bdLt p.voteEnd d = true →
      addVotePlan d p c l = .error (.votePlanVoteEndPassed d p.voteEnd)) ∧
      (bdLt p.voteEnd d = false → bdLt p.voteStart d = true →
        addVotePlan d p c l = .error (.votePlanVoteStartStartedAlready d p.voteStart)) ∧
      (bdLt p.voteEnd d = false → bdLt p.voteStart d = false →
        p.payloadType = .privatePayload → p.committeePublicKeys = [] →
        addVotePlan d p c l = .error .votePlanMissingCommitteeMemberKey) ∧
      (bdLt p.voteEnd d = false → bdLt p.voteStart d = false →
        (p.payloadType = .privatePayload → p.committeePublicKeys ≠ []) →
        (l.lookup p.pid).isSome = true →
        addVotePlan d p c l = .error (.votePlanInsertionError p.pid)) ∧
      (bdLt p.voteEnd d = false → bdLt p.voteStart d = false →
        (p.payloadType = .privatePayload → p.committeePublicKeys ≠ []) →
        l.lookup p.pid = none →
        addVotePlan d p c l = .ok ((p.pid, VotePlanManager.new p c) :: l) ∧
          ((p.pid, VotePlanManager.new p c) :: l).lookup p.pid =
            some (VotePlanManager.new p c)) := by
  have hpast : ∀ (h1 : bdLt p.voteEnd d = false) (h2 : bdLt p.voteStart d = false),
      (p.payloadType = .privatePayload → p.committeePublicKeys ≠ []) →
      addVotePlan d p c l =
        (match hamtInsert p.pid (VotePlanManager.new p c) l with
          | none => Except.error (VotePlanLedgerError.votePlanInsertionError p.pid)
          | some plans => Except.ok plans) := by
    intro h1 h2 hkeys
    unfold addVotePlan
    rw [if_neg (by simp [h1]), if_neg (by simp [h2])]
    cases hpt : p.payloadType with
    | publicPayload => rfl
    | privatePayload =>
      cases hk : p.committeePublicKeys with
      | nil => exact absurd hk (hkeys hpt)
      | cons key keys => simp only [hk]
  refine ⟨?_, ?_, ?_, ?_, ?_⟩
  · intro h1
    unfold addVotePlan
    rw [if_pos h1]
  · intro h1 h2
    unfold addVotePlan
    rw [if_neg (by simp [h1]), if_pos h2]
  · intro h1 h2 hpt hkeys
    unfold addVotePlan
    rw [if_neg (by simp [h1]), if_neg (by simp [h2])]
    simp only [hpt, hkeys]
  · intro h1 h2 hkeys hdup
    rw [hpast h1 h2 hkeys]
    have hins : hamtInsert p.pid (VotePlanManager.new p c) l = none := by
      unfold hamtInsert
      rw [if_pos hdup]
    rw [hins]
  · intro h1 h2 hkeys hfresh
    rw [hpast h1 h2 hkeys]
    have hins : hamtInsert p.pid (VotePlanManager.new p c) l =
        some ((p.pid, VotePlanManager.new p c) :: l) := by
      unfold hamtInsert
      rw [if_neg (by simp [hfresh])]
    rw [hins]
    exact ⟨rfl, by simp [List.lookup]⟩

/-- C4 witness: the success case and the fresh manager binding, evaluated on
a concrete public plan inserted into the empty ledger. -/
theorem addVotePlan_error_cases_check :
    addVotePlan ⟨0, 0⟩ ⟨⟨0, 1⟩, ⟨0, 2⟩, ⟨0, 3⟩, 1, .publicPayload, [], 5⟩ [] ledgerNew =
        .ok [(5, VotePlanManager.new ⟨⟨0, 1⟩, ⟨0, 2⟩, ⟨0, 3⟩, 1, .publicPayload, [], 5⟩ [])] ∧
      ([(5, VotePlanManager.new ⟨⟨0, 1⟩, ⟨0, 2⟩, ⟨0, 3⟩, 1, .publicPayload, [], 5⟩ [])] :
          VotePlanLedger).lookup 5 =
        some (VotePlanManager.new ⟨⟨0, 1⟩, ⟨0, 2⟩, ⟨0, 3⟩, 1, .publicPayload, [], 5⟩ []) :=
  (addVotePlan_error_cases ⟨0, 0⟩ ⟨⟨0, 1⟩, ⟨0, 2⟩, ⟨0, 3⟩, 1, .publicPayload, [], 5⟩ []
      ledgerNew).2.2.2.2 rfl rfl (by decide) rfl

/-- C8: each mutating ledger operation is a pure function of the receiver —
the Rust methods take `&self` (no interior mutability), which the shallow
embedding renders as functions returning a *new* ledger value — and on
success the new ledger differs from the (still intact) receiver exactly at
the touched plan id: `add_vote_plan` adds a binding absent from the receiver
and `apply_vote` / `apply_committee_result` / `apply_encrypted_vote_tally`
replace the one manager, all other bindings being shared; on error no new
ledger is produced and the receiver is unchanged by construction. -/
theorem ledger_functional_update (l l' : VotePlanLedger) :
    (∀ (d : BlockDate) (p : VotePlan) (c : List Nat),
      addVotePlan d p c l = .ok l' →
        l.lookup p.pid = none ∧
          l'.lookup p.pid = some (VotePlanManager.new p c) ∧
          ∀ j, j ≠ p.pid → l'.lookup j = l.lookup j) ∧
      (∀ (d : BlockDate) (idf : Nat) (cast : VoteCast),
        applyVote d idf cast l = .ok l' →
          (∃ m m', l.lookup cast.votePlan = some m ∧
            VotePlanManager.vote d idf cast m = .ok m' ∧
            l'.lookup cast.votePlan = some m') ∧
            ∀ j, j ≠ cast.votePlan → l'.lookup j = l.lookup j) ∧
      (∀ (d : BlockDate) (tid : Nat) (sig : TallyProof),
        applyCommitteeResult d tid sig l = .ok l' →
          (∃ m m', l.lookup tid = some m ∧ l'.lookup tid = some m') ∧
            ∀ j, j ≠ tid → l'.lookup j = l.lookup j) ∧
      (∀ (d : BlockDate) (tid cid : Nat),
        applyEncryptedVoteTally d tid cid l = .ok l' →
          (∃ m m', l.lookup tid = some m ∧ l'.lookup tid = some m') ∧
            ∀ j, j ≠ tid → l'.lookup j = l.lookup j) := by
  refine ⟨?_, ?_, ?_, ?_⟩
  · intro d p c h
    exact hamtInsert_spec p.pid (VotePlanManager.new p c) l l'
      (addVotePlan_ok_insert d p c l l' h)
  · intro d idf cast h
    exact hamtUpdate_spec cast.votePlan (VotePlanManager.vote d idf cast) l l'
      (applyVote_ok_update d idf cast l l' h)
  · intro d tid sig h
    obtain ⟨⟨v, v', hv, _, hv'⟩, hframe⟩ :=
      hamtUpdate_spec tid _ l l' (applyCommitteeResult_ok_update d tid sig l l' h)
    exact ⟨⟨v, v', hv, hv'⟩, hframe⟩
  · intro d tid cid h
    obtain ⟨⟨v, v', hv, _, hv'⟩, hframe⟩ :=
      hamtUpdate_spec tid _ l l' (applyEncryptedVoteTally_ok_update d tid cid l l' h)
    exact ⟨⟨v, v', hv, hv'⟩, hframe⟩

/-- C8 witness: the functional-update facts for a concrete successful
insertion — the receiver (the empty ledger) still lacks the binding that the
returned ledger carries. -/
theorem ledger_functional_update_check :
    (ledgerNew.lookup 5 = none) ∧
      (([(5, VotePlanManager.new ⟨⟨0, 1⟩, ⟨0, 2⟩, ⟨0, 3⟩, 1, .publicPayload, [], 5⟩ [])] :
          VotePlanLedger).lookup 5 =
        some (VotePlanManager.new ⟨⟨0, 1⟩, ⟨0, 2⟩, ⟨0, 3⟩, 1, .publicPayload, [], 5⟩ [])) := by
  have h := (ledger_functional_update ledgerNew
      [(5, VotePlanManager.new ⟨⟨0, 1⟩, ⟨0, 2⟩, ⟨0, 3⟩, 1, .publicPayload, [], 5⟩ [])]).1
    ⟨0, 0⟩ ⟨⟨0, 1⟩, ⟨0, 2⟩, ⟨0, 3⟩, 1, .publicPayload, [], 5⟩ [] rfl
  exact ⟨h.1, h.2.1⟩

end ChainLibs
